import Mathlib

/-!
Shallow embedding of the graph-assembly and association-mining core of
`src/ranking/model.py` (KDDCUP2016 ranking model builder), together with
theorems settling the specification claims about it.

Modelling conventions:
* Python floats are modelled as rationals (`ℚ`); the claims under scrutiny
  involve only exact arithmetic (division, max, comparisons) away from
  rounding boundaries.
* A Python function that can raise an exception is modelled as returning
  `Option`, with `none` standing for a raised exception.
* Python `set`s are modelled as `Finset`s when the source only uses
  membership/set algebra, and as deduplicated lists when the source
  iterates them to build further lists.
* Entity identifiers are taken from an arbitrary type with decidable
  equality; the `str()` canonicalisation the source applies on entry to
  `GraphBuilder` is modelled by the ids already being canonical.
-/

/-- `sorted_tuple` from model.py (line 37): pair sorting to avoid
repetitions when inserting into a set or dict. -/
def sorted_tuple {α : Type} [LinearOrder α] (a b : α) : α × α :=
  if a < b then (a, b) else (b, a)

/-- Stable insertion used to model Python's stable `sorted` and numpy
argsort ordering. -/
def insertBy {α : Type} (le : α → α → Bool) (x : α) : List α → List α
  | [] => [x]
  | y :: ys => if le x y then x :: y :: ys else y :: insertBy le x ys

/-- Stable insertion sort modelling `sorted(..., key=...)`. -/
def sortBy {α : Type} (le : α → α → Bool) (l : List α) : List α :=
  l.foldr (insertBy le) []

/-- `itertools.combinations(l, 2)`: all ordered-by-position pairs of
distinct positions of the list. -/
def combinations2 {α : Type} : List α → List (α × α)
  | [] => []
  | x :: xs => xs.map (fun y => (x, y)) ++ combinations2 xs

/-- The running maximum `wmax = max(w, wmax)` of model.py lines 104-106,
starting from `0.0`. -/
def wmaxOf {α β : Type} (edges : List (α × β × ℚ)) : ℚ :=
  edges.foldl (fun m e => max e.2.2 m) 0

/-- `normalize_edges` from model.py (lines 100-108).  The source computes
`wmax` as a running `max` starting from `0.0` and then divides every
weight by `wmax` in a list comprehension.  On an empty input the
comprehension is empty, so no division happens and `[]` is returned; on a
non-empty input with `wmax == 0` the first division `w / 0.0` raises
`ZeroDivisionError`, modelled as `none`. -/
def normalize_edges {α β : Type} (edges : List (α × β × ℚ)) :
    Option (List (α × β × ℚ)) :=
  if edges.isEmpty then some []
  else if wmaxOf edges = 0 then none
  else some (edges.map (fun e => (e.1, e.2.1, e.2.2 / wmaxOf edges)))

/-! ### Association mining: `get_rules_by_lift` (model.py lines 124-154) -/

/-- The pairs contributed by one transaction to `freqs2`: the source only
forms pairs when `len(trans) >= 2`, via `itertools.combinations(trans, 2)`
keyed by `sorted_tuple`. -/
def transPairs {α : Type} [LinearOrder α] (t : List α) : List (α × α) :=
  if 2 ≤ t.length then (combinations2 t).map (fun p => sorted_tuple p.1 p.2)
  else []

/-- Concatenation of all pair contributions across transactions; `freqs2`
counts occurrences in this list. -/
def allPairs {α : Type} [LinearOrder α] (ts : List (List α)) : List (α × α) :=
  (ts.map transPairs).flatten

/-- `freqs1[i]`: the source increments once per occurrence of `i` in each
transaction, i.e. the count of `i` in the concatenation of all
transactions. -/
def freqs1 {α : Type} [DecidableEq α] (ts : List (List α)) (i : α) : ℕ :=
  ts.flatten.count i

/-- `freqs2[p]` for a sorted pair key `p`. -/
def freqs2 {α : Type} [LinearOrder α] (ts : List (List α)) (p : α × α) : ℕ :=
  (allPairs ts).count p

/-- The distinct keys of the `freqs2` dict. -/
def pairKeys {α : Type} [LinearOrder α] (ts : List (List α)) : List (α × α) :=
  (allPairs ts).dedup

/-- The lift score `f * n / (freqs1[i1] * freqs1[i2])` computed at line
148 of model.py, with `n = float(len(transactions))`. -/
def liftOf {α : Type} [LinearOrder α] (ts : List (List α)) (i1 i2 : α) : ℚ :=
  (freqs2 ts (i1, i2) : ℚ) * (ts.length : ℚ) /
    ((freqs1 ts i1 : ℚ) * (freqs1 ts i2 : ℚ))

/-- `get_rules_by_lift` from model.py (lines 124-154): for every key of
`freqs2` with count `f >= 1`, emit `(i1, i2, lift)` when
`lift >= min_lift`.  The source iterates a Python-2 dict whose order is
unspecified; the model iterates the keys in first-occurrence order, and
the theorems about it are order-insensitive (membership / concrete
fixtures with a single key). -/
def get_rules_by_lift {α : Type} [LinearOrder α] (ts : List (List α))
    (min_lift : ℚ) : List (α × α × ℚ) :=
  (pairKeys ts).filterMap (fun p =>
    if 1 ≤ freqs2 ts p then
      if min_lift ≤ liftOf ts p.1 p.2 then some (p.1, p.2, liftOf ts p.1 p.2)
      else none
    else none)

/-! ### `GraphBuilder` (model.py lines 162-208) -/

/-- `GraphBuilder.__init__` stores the citation relation; `citing` and
`cited` below recover exactly the two `defaultdict(list)` adjacency maps
the constructor builds by appending in edge order. -/
structure GraphBuilder (α : Type) where
  edges : List (α × α)

namespace GraphBuilder

variable {α : Type} [DecidableEq α]

/-- `self.citing[n]`: the targets of the edges whose source is `n`, in
edge order (defaultdict gives `[]` for an unseen key). -/
def citing (g : GraphBuilder α) (n : α) : List α :=
  (g.edges.filter (fun e => e.1 = n)).map (·.2)

/-- `self.cited[n]`: the sources of the edges whose target is `n`, in
edge order (defaultdict gives `[]` for an unseen key). -/
def cited (g : GraphBuilder α) (n : α) : List α :=
  (g.edges.filter (fun e => e.2 = n)).map (·.1)

/-- `follow_nodes` (lines 178-187): the union of outgoing and incoming
neighbours of every node of the input set. -/
def follow_nodes (g : GraphBuilder α) (nodes : Finset α) : Finset α :=
  nodes.biUnion (fun n => (g.citing n).toFinset ∪ (g.cited n).toFinset)

/-- `subgraph` (lines 190-208): all edges between the given nodes,
excluding self-loops, returned as a set. -/
def subgraph (g : GraphBuilder α) (nodes : Finset α) : Finset (α × α) :=
  nodes.biUnion (fun n =>
    ((g.citing n).toFinset.filter
        (fun c => n ≠ c ∧ c ∈ nodes)).image (fun c => (n, c)) ∪
    ((g.cited n).toFinset.filter
        (fun c => n ≠ c ∧ c ∈ nodes)).image (fun c => (c, n)))

/-- The full node set of the stored relation: every id observed as a
source or as a target. -/
def nodes (g : GraphBuilder α) : Finset α :=
  (g.edges.map Prod.fst).toFinset ∪ (g.edges.map Prod.snd).toFinset

end GraphBuilder

/-! ### Publications-layer hop expansion (model.py lines 380-394)

The loop in `get_pubs_layer` is

    nodes = set(docs); new_nodes = nodes
    for h in xrange(n_hops):
        new_nodes = self.edges_lookup.follow_nodes(new_nodes)
        new_nodes -= exclude_list
        nodes.update(new_nodes)

modelled by the per-hop frontier (`new_nodes`) and the accumulated node
set (`nodes`) below. -/

/-- `new_nodes` after `h` iterations of the hop loop: the frontier passed
to `follow_nodes` at hop `h+1`. -/
def pubs_new_nodes {α : Type} [DecidableEq α] (g : GraphBuilder α)
    (seeds exclude : Finset α) : ℕ → Finset α
  | 0 => seeds
  | h + 1 => g.follow_nodes (pubs_new_nodes g seeds exclude h) \ exclude

/-- `nodes` after `h` iterations of the hop loop. -/
def pubs_nodes {α : Type} [DecidableEq α] (g : GraphBuilder α)
    (seeds exclude : Finset α) : ℕ → Finset α
  | 0 => seeds
  | h + 1 => pubs_nodes g seeds exclude h ∪ pubs_new_nodes g seeds exclude (h + 1)

/-! ### Authors layer: `get_cached_coauthorship_edges` (model.py 424-447)

The source iterates the (deduplicated) author set; for each author it
selects the rows of the `coauthorships` table mentioning that author.
For each row `(a1, a2, npapers)` it computes
`npapers = 1.0 + np.log(npapers)` — and then never uses that value: the
edge inserted is `(a1, a2, 1.0)` (canonicalised smaller id first), a
constant weight.  The discarded log expression therefore does not appear
in the model's output, and the edge set is finally passed through
`normalize_edges`.  Python sets are modelled as deduplicated lists. -/

/-- `get_cached_coauthorship_edges(authors)` with the `coauthorships`
table rows `(author1, author2, npapers)` passed explicitly in place of
the database. -/
def cached_coauth_edge_set (coauthorships : List (ℕ × ℕ × ℕ))
    (authors : List ℕ) : List (ℕ × ℕ × ℚ) :=
  let aset := authors.dedup
  let rows := fun a =>
    coauthorships.filter (fun r => r.1 = a ∨ r.2.1 = a)
  (aset.map (fun a =>
    (rows a).filterMap (fun r =>
      if r.1 ∈ aset ∧ r.2.1 ∈ aset then
        some (if r.1 < r.2.1 then (r.1, r.2.1, (1 : ℚ))
              else (r.2.1, r.1, (1 : ℚ)))
      else none))).flatten.dedup

def get_cached_coauthorship_edges (coauthorships : List (ℕ × ℕ × ℕ))
    (authors : List ℕ) : Option (List (ℕ × ℕ × ℚ)) :=
  normalize_edges (cached_coauth_edge_set coauthorships authors)

/-! ### `get_relevant_topics` (model.py lines 526-538)

The source tests its optional arguments with Python truthiness
(`if ntop:` / `if above:`): `None` and zero are both falsy.  When `ntop`
is truthy it returns `np.argsort(doc_topics)[::-1][:ntop]` — regardless
of whether `above` was also supplied; when only `above` is truthy it
returns `np.where(doc_topics > above)[0]`; otherwise it raises
`TypeError`, modelled as `none`. -/

/-- Python truthiness of the optional `ntop` argument. -/
def truthyNat : Option ℕ → Bool
  | none => false
  | some n => n != 0

/-- Python truthiness of the optional `above` argument. -/
def truthyRat : Option ℚ → Bool
  | none => false
  | some q => q != 0

/-- `np.argsort(doc_topics)`: the positions of `doc_topics` sorted by
value, ascending.  (The source's quicksort leaves tie order unspecified;
the model fixes stable order, and the theorems relying on `argsort` never
depend on tie order.) -/
def argsort (v : List ℚ) : List ℕ :=
  sortBy (fun i j => v.getD i 0 ≤ v.getD j 0) (List.range v.length)

/-- `get_relevant_topics` (model.py lines 526-538). -/
def get_relevant_topics (doc_topics : List ℚ) (ntop : Option ℕ)
    (above : Option ℚ) : Option (List ℕ) :=
  if truthyNat ntop then
    some ((argsort doc_topics).reverse.take (ntop.getD 0))
  else if truthyRat above then
    some ((List.range doc_topics.length).filter
      (fun i => above.getD 0 < doc_topics.getD i 0))
  else none

/-! ### Topic pairs: `get_frequent_topic_pairs` (model.py lines 541-568)
and the topic-topic edges of `get_topics_layer_from_db` (lines 571-623) -/

/-- The directional interest score
`float(v) / freqs1[t1] - freqs1[t2] / total` computed at lines 558-559,
where `v = freqs2[sorted_tuple(t1, t2)]` and
`total = float(len(topics_per_document))`. -/
def interestOf {α : Type} [LinearOrder α] (ts : List (List α))
    (t1 t2 : α) : ℚ :=
  (freqs2 ts (sorted_tuple t1 t2) : ℚ) / (freqs1 ts t1 : ℚ) -
    (freqs1 ts t2 : ℚ) / (ts.length : ℚ)

/-- The loop body of `get_frequent_topic_pairs` (model.py lines 556-562)
for one key `(t1, t2)` of `freqs2` with count `v`:
`int12 = float(v) / freqs1[t1] - freqs1[t2] / total` and
`int21 = float(v) / freqs1[t2] - freqs1[t1] / total` are computed and each
direction is appended independently when it reaches `min_interest`. -/
def topic_pair_emit {α : Type} [LinearOrder α] (ts : List (List α))
    (min_interest : ℚ) (p : α × α) : List (α × α × ℚ) :=
  let v : ℚ := (freqs2 ts p : ℚ)
  let total : ℚ := (ts.length : ℚ)
  let int12 : ℚ := v / (freqs1 ts p.1 : ℚ) - (freqs1 ts p.2 : ℚ) / total
  let int21 : ℚ := v / (freqs1 ts p.2 : ℚ) - (freqs1 ts p.1 : ℚ) / total
  (if min_interest ≤ int12 then [(p.1, p.2, int12)] else []) ++
  (if min_interest ≤ int21 then [(p.2, p.1, int21)] else [])

/-- `get_frequent_topic_pairs` (model.py lines 541-568): the same
frequency tables as `get_rules_by_lift`, but for every key of `freqs2`
both directional interest scores are computed and each direction is
emitted independently when it reaches `min_interest`.  The source visits
the keys sorted by descending pair count (Python-2 dict tie order
unspecified); the model sorts the first-occurrence key list with a stable
insertion sort by descending count, and the theorems about the result
are order-insensitive. -/
def get_frequent_topic_pairs {α : Type} [LinearOrder α]
    (ts : List (List α)) (min_interest : ℚ) : List (α × α × ℚ) :=
  ((sortBy (fun p q => freqs2 ts q ≤ freqs2 ts p) (pairKeys ts)).map
    (topic_pair_emit ts min_interest)).flatten

/-- The topic-topic edge set built by `get_topics_layer_from_db`
(model.py lines 607-608): the source calls `get_rules_by_lift` on the
per-document topic lists (the `get_frequent_topic_pairs` call at line 606
is commented out) and then normalizes. -/
def get_topics_layer_topic_topic_edges (topic_ids_per_doc : List (List ℕ))
    (min_conf_topics : ℚ) : Option (List (ℕ × ℕ × ℚ)) :=
  normalize_edges (get_rules_by_lift topic_ids_per_doc min_conf_topics)

/-! ### `assemble_layers` (model.py lines 880-1003)

The id-assignment discipline of the assembler: a single counter
`next_id` starts at `0` and is incremented once per node added, over the
layers in the fixed order publications, authors, ngrams, venues (the
topics block is commented out in the source).  Edge insertion looks the
endpoints up in the per-layer id maps and so never introduces ids of its
own (a missing endpoint raises `KeyError` in the source).  The model
records the assigned nodes `(internal id, node type)` together with the
per-layer id maps. -/

inductive NodeType : Type
  | paper
  | author
  | ngram
  | venue
deriving DecidableEq, Repr

/-- One layer's worth of the `for entity in layer: add_node(next_id);
ids[entity] = next_id; next_id += 1` loop: returns the nodes added, the
id map recorded, and the final counter. -/
def add_layer {α : Type} (ty : NodeType) (entities : List α)
    (next_id : ℕ) : List (ℕ × NodeType) × List (α × ℕ) × ℕ :=
  match entities with
  | [] => ([], [], next_id)
  | e :: es =>
    let rest := add_layer ty es (next_id + 1)
    ((next_id, ty) :: rest.1, (e, next_id) :: rest.2.1, rest.2.2)

/-- The nodes of the unified graph as assembled by `assemble_layers`,
with the per-layer id maps, in the source's fixed layer order. -/
def assemble_layers {α β γ δ : Type} (pubs : List α) (authors : List β)
    (ngrams : List γ) (venues : List δ) :
    List (ℕ × NodeType) × List (α × ℕ) × List (β × ℕ) × List (γ × ℕ) ×
      List (δ × ℕ) :=
  let p := add_layer NodeType.paper pubs 0
  let a := add_layer NodeType.author authors p.2.2
  let w := add_layer NodeType.ngram ngrams a.2.2
  let v := add_layer NodeType.venue venues w.2.2
  (p.1 ++ a.1 ++ w.1 ++ v.1, p.2.1, a.2.1, w.2.1, v.2.1)

/-! ## Helper lemmas about `GraphBuilder` -/

namespace GraphBuilder

variable {α : Type} [DecidableEq α]

theorem mem_citing {g : GraphBuilder α} {n c : α} :
    c ∈ g.citing n ↔ (n, c) ∈ g.edges := by
  unfold citing
  simp only [List.mem_map, List.mem_filter, decide_eq_true_eq]
  constructor
  · rintro ⟨e, ⟨he, h1⟩, rfl⟩
    obtain ⟨e1, e2⟩ := e
    obtain rfl : e1 = n := h1
    exact he
  · intro h
    exact ⟨(n, c), ⟨h, rfl⟩, rfl⟩

theorem mem_cited {g : GraphBuilder α} {n c : α} :
    c ∈ g.cited n ↔ (c, n) ∈ g.edges := by
  unfold cited
  simp only [List.mem_map, List.mem_filter, decide_eq_true_eq]
  constructor
  · rintro ⟨e, ⟨he, h2⟩, rfl⟩
    obtain ⟨e1, e2⟩ := e
    obtain rfl : e2 = n := h2
    exact he
  · intro h
    exact ⟨(c, n), ⟨h, rfl⟩, rfl⟩

theorem mem_follow_nodes {g : GraphBuilder α} {N : Finset α} {x : α} :
    x ∈ g.follow_nodes N ↔ ∃ n ∈ N, (n, x) ∈ g.edges ∨ (x, n) ∈ g.edges := by
  unfold follow_nodes
  simp only [Finset.mem_biUnion, Finset.mem_union, List.mem_toFinset,
    mem_citing, mem_cited]

theorem mem_subgraph {g : GraphBuilder α} {N : Finset α} {u v : α} :
    (u, v) ∈ g.subgraph N ↔
      (u, v) ∈ g.edges ∧ u ∈ N ∧ v ∈ N ∧ u ≠ v := by
  unfold subgraph
  simp only [Finset.mem_biUnion, Finset.mem_union, Finset.mem_image,
    Finset.mem_filter, List.mem_toFinset, mem_citing, mem_cited,
    Prod.mk.injEq]
  constructor
  · rintro ⟨n, hn, h | h⟩
    · obtain ⟨c, ⟨hc, hne, hcN⟩, rfl, rfl⟩ := h
      exact ⟨hc, hn, hcN, hne⟩
    · obtain ⟨c, ⟨hc, hne, hcN⟩, rfl, rfl⟩ := h
      exact ⟨hc, hcN, hn, fun e => hne e.symm⟩
  · rintro ⟨he, hu, hv, hne⟩
    exact ⟨u, hu, Or.inl ⟨v, ⟨he, hne, hv⟩, rfl, rfl⟩⟩

theorem mem_nodes {g : GraphBuilder α} {x : α} :
    x ∈ g.nodes ↔ ∃ e ∈ g.edges, e.1 = x ∨ e.2 = x := by
  unfold nodes
  simp only [Finset.mem_union, List.mem_toFinset, List.mem_map]
  constructor
  · rintro (⟨e, he, rfl⟩ | ⟨e, he, rfl⟩)
    · exact ⟨e, he, Or.inl rfl⟩
    · exact ⟨e, he, Or.inr rfl⟩
  · rintro ⟨e, he, rfl | rfl⟩
    · exact Or.inl ⟨e, he, rfl⟩
    · exact Or.inr ⟨e, he, rfl⟩

end GraphBuilder

/-! ## Claim C5 -/

/-- C5 (amended): for every node set `N`, `subgraph N` contains exactly the
directed edges `(u, v)` of the original relation with both endpoints in `N`
and `u ≠ v` (no self-loops, no endpoint outside `N`, no duplicates — the
result is a set); for `N` equal to the full node set it equals the
deduplicated original relation with self-loops removed. -/
theorem claim_C5_subgraph {α : Type} [DecidableEq α] (g : GraphBuilder α)
    (N : Finset α) :
    (∀ u v : α, (u, v) ∈ g.subgraph N ↔
      (u, v) ∈ g.edges ∧ u ∈ N ∧ v ∈ N ∧ u ≠ v) ∧
    g.subgraph g.nodes = g.edges.toFinset.filter (fun e => e.1 ≠ e.2) := by
  constructor
  · intro u v
    exact GraphBuilder.mem_subgraph
  · ext e
    obtain ⟨u, v⟩ := e
    simp only [GraphBuilder.mem_subgraph, Finset.mem_filter,
      List.mem_toFinset]
    constructor
    · rintro ⟨he, _, _, hne⟩
      exact ⟨he, hne⟩
    · rintro ⟨he, hne⟩
      refine ⟨he, ?_, ?_, hne⟩
      · exact GraphBuilder.mem_nodes.mpr ⟨(u, v), he, Or.inl rfl⟩
      · exact GraphBuilder.mem_nodes.mpr ⟨(u, v), he, Or.inr rfl⟩

/-- C5 as stated is false at a relation containing a self-loop: with the
single edge `(1, 1)` the full node set is `{1}`, the deduplicated original
relation is `{(1, 1)}`, but `subgraph` of the full node set is empty. -/
theorem claim_C5_cex :
    GraphBuilder.subgraph (⟨[((1 : ℕ), 1)]⟩ : GraphBuilder ℕ)
        (GraphBuilder.nodes ⟨[((1 : ℕ), 1)]⟩) = ∅ ∧
    (GraphBuilder.edges (⟨[((1 : ℕ), 1)]⟩ : GraphBuilder ℕ)).toFinset =
        {((1 : ℕ), (1 : ℕ))} ∧
    (∅ : Finset (ℕ × ℕ)) ≠ {((1 : ℕ), (1 : ℕ))} := by decide

/-- C5 witness: the characterization applied at the concrete scenario of the
spec (`edges [(1,2),(2,3),(1,3)]`, `N = {1,2}`). -/
theorem claim_C5_witness :
    ((1 : ℕ), (2 : ℕ)) ∈
      GraphBuilder.subgraph (⟨[((1 : ℕ), 2), (2, 3), (1, 3)]⟩ : GraphBuilder ℕ)
        {1, 2} ↔
      ((1 : ℕ), (2 : ℕ)) ∈ (⟨[((1 : ℕ), 2), (2, 3), (1, 3)]⟩ : GraphBuilder ℕ).edges ∧
      (1 : ℕ) ∈ ({1, 2} : Finset ℕ) ∧ (2 : ℕ) ∈ ({1, 2} : Finset ℕ) ∧
      (1 : ℕ) ≠ 2 :=
  (claim_C5_subgraph (⟨[((1 : ℕ), 2), (2, 3), (1, 3)]⟩ : GraphBuilder ℕ)
    {1, 2}).1 1 2

/-! ## Claim C10 -/

/-- C10: an id that occurs in no edge of the relation is harmless: its
adjacency lists are empty (the `defaultdict` yields `[]`, no exception), it
contributes no neighbours to `follow_nodes`, and it contributes no edges to
`subgraph`. -/
theorem claim_C10_unknown_id {α : Type} [DecidableEq α] (g : GraphBuilder α)
    (N : Finset α) (x : α) (h : ∀ e ∈ g.edges, e.1 ≠ x ∧ e.2 ≠ x) :
    g.citing x = [] ∧ g.cited x = [] ∧
    g.follow_nodes (insert x N) = g.follow_nodes N ∧
    g.subgraph (insert x N) = g.subgraph N := by
  refine ⟨?_, ?_, ?_, ?_⟩
  · rw [List.eq_nil_iff_forall_not_mem]
    intro c hc
    exact (h _ (GraphBuilder.mem_citing.mp hc)).1 rfl
  · rw [List.eq_nil_iff_forall_not_mem]
    intro c hc
    exact (h _ (GraphBuilder.mem_cited.mp hc)).2 rfl
  · ext y
    simp only [GraphBuilder.mem_follow_nodes, Finset.mem_insert]
    constructor
    · rintro ⟨n, rfl | hn, hor⟩
      · rcases hor with he | he
        · exact absurd rfl (h _ he).1
        · exact absurd rfl (h _ he).2
      · exact ⟨n, hn, hor⟩
    · rintro ⟨n, hn, hor⟩
      exact ⟨n, Or.inr hn, hor⟩
  · ext e
    obtain ⟨u, v⟩ := e
    simp only [GraphBuilder.mem_subgraph, Finset.mem_insert]
    constructor
    · rintro ⟨he, hu, hv, hne⟩
      rcases hu with rfl | hu
      · exact absurd rfl (h _ he).1
      rcases hv with rfl | hv
      · exact absurd rfl (h _ he).2
      exact ⟨he, hu, hv, hne⟩
    · rintro ⟨he, hu, hv, hne⟩
      exact ⟨he, Or.inr hu, Or.inr hv, hne⟩

/-- C10 witness: id `5` occurs in no edge of the relation `[(1, 2)]`; adding
it to the query set changes neither `follow_nodes` nor `subgraph`. -/
theorem claim_C10_witness :
    (∀ e ∈ (⟨[((1 : ℕ), 2)]⟩ : GraphBuilder ℕ).edges, e.1 ≠ 5 ∧ e.2 ≠ 5) ∧
    (GraphBuilder.citing (⟨[((1 : ℕ), 2)]⟩ : GraphBuilder ℕ) 5 = [] ∧
     GraphBuilder.cited (⟨[((1 : ℕ), 2)]⟩ : GraphBuilder ℕ) 5 = [] ∧
     GraphBuilder.follow_nodes (⟨[((1 : ℕ), 2)]⟩ : GraphBuilder ℕ)
        (insert 5 {1}) =
       GraphBuilder.follow_nodes (⟨[((1 : ℕ), 2)]⟩ : GraphBuilder ℕ) {1} ∧
     GraphBuilder.subgraph (⟨[((1 : ℕ), 2)]⟩ : GraphBuilder ℕ)
        (insert 5 {1}) =
       GraphBuilder.subgraph (⟨[((1 : ℕ), 2)]⟩ : GraphBuilder ℕ) {1}) :=
  ⟨by decide, claim_C10_unknown_id ⟨[((1 : ℕ), 2)]⟩ {1} 5 (by decide)⟩

/-! ## Claim C2 -/

/-- C2 (amended): at every hop, (only) the exclude set is subtracted from
the `follow_nodes` result before it is merged into the accumulated node
set: excluded ids never enter via a hop and the accumulated set grows
monotonically.  Already-accumulated nodes are not subtracted and may be
passed to `follow_nodes` again. -/
theorem claim_C2_hop_subtraction {α : Type} [DecidableEq α]
    (g : GraphBuilder α) (seeds exclude : Finset α) (h : ℕ) :
    pubs_new_nodes g seeds exclude (h + 1) ∩ exclude = ∅ ∧
    pubs_nodes g seeds exclude h ⊆ pubs_nodes g seeds exclude (h + 1) := by
  constructor
  · rw [pubs_new_nodes]
    exact Finset.sdiff_inter_self _ _
  · rw [pubs_nodes]
    exact Finset.subset_union_left

/-- C2 as stated is false on the code: only the exclude list is subtracted,
not the accumulated set.  With the single citation `(1, 2)`, seed set `{1}`
and empty exclude list, the frontier after hop 2 (which is what hop 3 passes
to `follow_nodes`) again contains node 1, already in the accumulated set
after hop 1. -/
theorem claim_C2_cex :
    (1 : ℕ) ∈ pubs_new_nodes (⟨[(1, 2)]⟩ : GraphBuilder ℕ) {1} ∅ 2 ∧
    (1 : ℕ) ∈ pubs_nodes (⟨[(1, 2)]⟩ : GraphBuilder ℕ) {1} ∅ 1 := by decide

/-! ## Helper lemmas about `wmaxOf` and `normalize_edges` -/

theorem foldl_wmax_init_le {α β : Type} :
    ∀ (l : List (α × β × ℚ)) (a : ℚ),
      a ≤ l.foldl (fun m e => max e.2.2 m) a
  | [], _ => le_refl _
  | e :: l, a =>
    le_trans (le_max_right e.2.2 a) (foldl_wmax_init_le l (max e.2.2 a))

theorem foldl_wmax_le_of_mem {α β : Type} :
    ∀ (l : List (α × β × ℚ)) (a : ℚ) (e : α × β × ℚ), e ∈ l →
      e.2.2 ≤ l.foldl (fun m e => max e.2.2 m) a
  | x :: l, a, e, he => by
    rcases List.mem_cons.mp he with rfl | hm
    · exact le_trans (le_max_left e.2.2 a) (foldl_wmax_init_le l _)
    · exact foldl_wmax_le_of_mem l _ e hm

theorem foldl_wmax_init_or_mem {α β : Type} :
    ∀ (l : List (α × β × ℚ)) (a : ℚ),
      l.foldl (fun m e => max e.2.2 m) a = a ∨
        ∃ e ∈ l, l.foldl (fun m e => max e.2.2 m) a = e.2.2
  | [], a => Or.inl rfl
  | x :: l, a => by
    rcases foldl_wmax_init_or_mem l (max x.2.2 a) with h | ⟨e, he, h⟩
    · rcases max_choice x.2.2 a with hm | hm
      · exact Or.inr ⟨x, List.mem_cons_self x l, by rw [List.foldl_cons, h, hm]⟩
      · exact Or.inl (by rw [List.foldl_cons, h, hm])
    · exact Or.inr ⟨e, List.mem_cons_of_mem x he, by rw [List.foldl_cons, h]⟩

theorem wmaxOf_nonneg {α β : Type} (edges : List (α × β × ℚ)) :
    0 ≤ wmaxOf edges :=
  foldl_wmax_init_le edges 0

theorem le_wmaxOf {α β : Type} {edges : List (α × β × ℚ)} {e : α × β × ℚ}
    (he : e ∈ edges) : e.2.2 ≤ wmaxOf edges :=
  foldl_wmax_le_of_mem edges 0 e he

theorem wmaxOf_eq_zero_iff {α β : Type} (edges : List (α × β × ℚ)) :
    wmaxOf edges = 0 ↔ ∀ e ∈ edges, e.2.2 ≤ 0 := by
  constructor
  · intro h e he
    rw [← h]
    exact le_wmaxOf he
  · intro h
    rcases foldl_wmax_init_or_mem edges 0 with h0 | ⟨e, he, hm⟩
    · exact h0
    · exact le_antisymm (by rw [wmaxOf, hm]; exact h e he) (wmaxOf_nonneg edges)

/-! ## Claim C3 -/

/-- C3 (amended): `normalize_edges` is not guarded.  It raises
`ZeroDivisionError` (modelled as `none`) exactly when the input is
non-empty and every weight is `≤ 0` (so the running maximum `wmax`, which
starts at `0.0`, equals `0`); the only total-weight-zero input it survives
is the empty sequence, for which no division is attempted and `[]` is
returned. -/
theorem claim_C3_normalize_unguarded {α β : Type}
    (edges : List (α × β × ℚ)) :
    (normalize_edges edges = none ↔
      edges ≠ [] ∧ ∀ e ∈ edges, e.2.2 ≤ 0) ∧
    normalize_edges ([] : List (α × β × ℚ)) = some [] := by
  constructor
  · unfold normalize_edges
    rcases eq_or_ne edges [] with rfl | hne
    · simp
    · rw [if_neg (by simpa [List.isEmpty_iff] using hne)]
      by_cases h0 : wmaxOf edges = 0
      · rw [if_pos h0]
        exact ⟨fun _ => ⟨hne, (wmaxOf_eq_zero_iff edges).mp h0⟩, fun _ => rfl⟩
      · simp only [if_neg h0]
        constructor
        · intro h
          exact absurd h (by simp)
        · rintro ⟨-, hall⟩
          exact absurd ((wmaxOf_eq_zero_iff edges).mpr hall) h0
  · rfl

/-- C3 as stated is false on the code: the non-empty all-zero-weight input
`[(0, 0, 0.0)]` makes `normalize_edges` divide by zero (raise), rather than
return an empty result or skip the edges. -/
theorem claim_C3_cex :
    normalize_edges [((0 : ℕ), (0 : ℕ), (0 : ℚ))] = none ∧
    normalize_edges [((0 : ℕ), (0 : ℕ), (0 : ℚ))] ≠ some [] ∧
    normalize_edges [((0 : ℕ), (0 : ℕ), (0 : ℚ))] ≠
      some [((0 : ℕ), (0 : ℕ), (0 : ℚ))] := by
  refine ⟨?_, by simp [normalize_edges, wmaxOf], by simp [normalize_edges, wmaxOf]⟩
  simp [normalize_edges, wmaxOf]

/-- C3 witness: the amended characterization evaluated at the concrete
non-empty all-zero input. -/
theorem claim_C3_witness :
    (normalize_edges [((0 : ℕ), (1 : ℕ), (0 : ℚ))] = none ↔
      [((0 : ℕ), (1 : ℕ), (0 : ℚ))] ≠ [] ∧
        ∀ e ∈ [((0 : ℕ), (1 : ℕ), (0 : ℚ))], e.2.2 ≤ 0) ∧
    normalize_edges ([] : List (ℕ × ℕ × ℚ)) = some [] :=
  claim_C3_normalize_unguarded [((0 : ℕ), (1 : ℕ), (0 : ℚ))]

/-! ## Claim C7 -/

/-- C7: on any edge sequence with non-negative weights, at least one of
them positive, `normalize_edges` succeeds, preserves every edge's
endpoints (in order), yields weights in `[0, 1]` with maximum exactly `1`;
and on the empty sequence it returns the empty sequence without raising. -/
theorem claim_C7_normalize_correct {α β : Type} (edges : List (α × β × ℚ))
    (h1 : ∀ e ∈ edges, 0 ≤ e.2.2) (h2 : ∃ e ∈ edges, 0 < e.2.2) :
    (normalize_edges ([] : List (α × β × ℚ)) = some []) ∧
    ∃ out, normalize_edges edges = some out ∧
      out.map (fun e => (e.1, e.2.1)) = edges.map (fun e => (e.1, e.2.1)) ∧
      (∀ e ∈ out, 0 ≤ e.2.2 ∧ e.2.2 ≤ 1) ∧
      ∃ e ∈ out, e.2.2 = 1 := by
  obtain ⟨w, hw, hwpos⟩ := h2
  have hwmax : 0 < wmaxOf edges := lt_of_lt_of_le hwpos (le_wmaxOf hw)
  have hne : edges ≠ [] := by
    intro h
    rw [h] at hw
    exact absurd hw (List.not_mem_nil w)
  refine ⟨rfl, edges.map (fun e => (e.1, e.2.1, e.2.2 / wmaxOf edges)),
    ?_, ?_, ?_, ?_⟩
  · unfold normalize_edges
    rw [if_neg (by simpa [List.isEmpty_iff] using hne),
      if_neg (ne_of_gt hwmax)]
  · rw [List.map_map]
    rfl
  · intro e he
    obtain ⟨e0, he0, rfl⟩ := List.mem_map.mp he
    exact ⟨div_nonneg (h1 e0 he0) (le_of_lt hwmax),
      (div_le_one hwmax).mpr (le_wmaxOf he0)⟩
  · rcases foldl_wmax_init_or_mem edges 0 with h0 | ⟨e, he, hm⟩
    · exact absurd h0 (ne_of_gt hwmax)
    · refine ⟨(e.1, e.2.1, e.2.2 / wmaxOf edges),
        List.mem_map.mpr ⟨e, he, rfl⟩, ?_⟩
      have : e.2.2 = wmaxOf edges := hm.symm
      rw [this]
      exact div_self (ne_of_gt hwmax)

/-- C7 witness: applied at the concrete input `[(0,1,2), (2,3,1)]`. -/
theorem claim_C7_witness :
    ((∀ e ∈ [((0 : ℕ), (1 : ℕ), (2 : ℚ)), (2, 3, 1)], 0 ≤ e.2.2) ∧
     (∃ e ∈ [((0 : ℕ), (1 : ℕ), (2 : ℚ)), (2, 3, 1)], 0 < e.2.2)) ∧
    ((normalize_edges ([] : List (ℕ × ℕ × ℚ)) = some []) ∧
     ∃ out, normalize_edges [((0 : ℕ), (1 : ℕ), (2 : ℚ)), (2, 3, 1)] =
        some out ∧
      out.map (fun e => (e.1, e.2.1)) =
        [((0 : ℕ), (1 : ℕ), (2 : ℚ)), (2, 3, 1)].map (fun e => (e.1, e.2.1)) ∧
      (∀ e ∈ out, 0 ≤ e.2.2 ∧ e.2.2 ≤ 1) ∧
      ∃ e ∈ out, e.2.2 = 1) :=
  ⟨⟨by decide, by decide⟩,
    claim_C7_normalize_correct [((0 : ℕ), (1 : ℕ), (2 : ℚ)), (2, 3, 1)]
      (by decide) (by decide)⟩

/-! ## Claim C1 -/

/-- C1 concerns a code bug: the authors layer (`get_authors_layer`, line
516) obtains its co-authorship edges from `get_cached_coauthorship_edges`,
which computes the log-dampened weight `npapers = 1.0 + np.log(npapers)`
(line 440) and then never uses it — the edge inserted at line 443 carries
the constant weight `1.0`.  Hence every pre-normalization co-authorship
edge weight is `1`, and in particular two authors sharing `4` papers get
weight `1`, not the claimed `1 + ln 4`: the first conjunct shows the
constant weight for every input, the second evaluates the code on the
failing input (the single table row `(1, 2, 4)` over the author set
`{1, 2}`), and the third shows `1 + ln 4 ≠ 1`, i.e. the claimed weight
differs from the produced one. -/
theorem claim_C1_coauth_weight_bug :
    (∀ (coas : List (ℕ × ℕ × ℕ)) (authors : List ℕ)
      (e : ℕ × ℕ × ℚ), e ∈ cached_coauth_edge_set coas authors →
        e.2.2 = 1) ∧
    get_cached_coauthorship_edges [(1, 2, 4)] [1, 2] = some [(1, 2, 1)] ∧
    (1 : ℝ) + Real.log 4 ≠ 1 := by
  refine ⟨?_, ?_, ?_⟩
  · intro coas authors e he
    have he' := List.mem_dedup.mp he
    obtain ⟨l, hl, hel⟩ := List.mem_flatten.mp he'
    obtain ⟨a, -, rfl⟩ := List.mem_map.mp hl
    obtain ⟨r, -, hr⟩ := List.mem_filterMap.mp hel
    split at hr
    · rw [Option.some_inj] at hr
      split at hr <;> (subst hr; rfl)
    · exact absurd hr (by simp)
  · have he : cached_coauth_edge_set [(1, 2, 4)] [1, 2] = [(1, 2, 1)] := by
      decide
    rw [get_cached_coauthorship_edges, he]
    norm_num [normalize_edges, wmaxOf]
  · have h4 : (0 : ℝ) < Real.log 4 := Real.log_pos (by norm_num)
    intro h
    linarith

/-! ## Helper lemmas about the association miner -/

theorem sorted_tuple_fst_le_snd {α : Type} [LinearOrder α] (a b : α) :
    (sorted_tuple a b).1 ≤ (sorted_tuple a b).2 := by
  unfold sorted_tuple
  split
  · exact le_of_lt (by assumption)
  · exact le_of_not_lt (by assumption)

theorem sorted_tuple_of_le {α : Type} [LinearOrder α] {a b : α}
    (h : a ≤ b) : sorted_tuple a b = (a, b) := by
  unfold sorted_tuple
  split
  · rfl
  · rw [le_antisymm h (le_of_not_lt (by assumption))]

theorem sorted_tuple_of_ge {α : Type} [LinearOrder α] {a b : α}
    (h : b ≤ a) : sorted_tuple a b = (b, a) := by
  unfold sorted_tuple
  rw [if_neg (not_lt.mpr h)]

theorem mem_pairKeys_sorted {α : Type} [LinearOrder α]
    {ts : List (List α)} {p : α × α} (hp : p ∈ pairKeys ts) : p.1 ≤ p.2 := by
  obtain ⟨l, hl, hpl⟩ := List.mem_flatten.mp (List.mem_dedup.mp hp)
  obtain ⟨t, -, rfl⟩ := List.mem_map.mp hl
  unfold transPairs at hpl
  split at hpl
  · obtain ⟨q, -, rfl⟩ := List.mem_map.mp hpl
    exact sorted_tuple_fst_le_snd q.1 q.2
  · exact absurd hpl (List.not_mem_nil p)

theorem sorted_tuple_eta {α : Type} [LinearOrder α] {p : α × α}
    (h : p.1 ≤ p.2) : sorted_tuple p.1 p.2 = p := by
  rw [sorted_tuple_of_le h]

theorem freqs2_pos_of_mem_pairKeys {α : Type} [LinearOrder α]
    {ts : List (List α)} {p : α × α} (hp : p ∈ pairKeys ts) :
    1 ≤ freqs2 ts p :=
  List.count_pos_iff.mpr (List.mem_dedup.mp hp)

theorem mem_insertBy {α : Type} (le : α → α → Bool) (x y : α)
    (l : List α) : y ∈ insertBy le x l ↔ y = x ∨ y ∈ l := by
  induction l with
  | nil => simp [insertBy]
  | cons z zs ih =>
    unfold insertBy
    split
    · simp [List.mem_cons]
    · simp only [List.mem_cons, ih]
      tauto

theorem mem_sortBy {α : Type} (le : α → α → Bool) (l : List α) (x : α) :
    x ∈ sortBy le l ↔ x ∈ l := by
  induction l with
  | nil => simp [sortBy]
  | cons y ys ih =>
    unfold sortBy at ih ⊢
    rw [List.foldr_cons, mem_insertBy, ih, List.mem_cons]

theorem mem_get_rules_by_lift {α : Type} [LinearOrder α]
    {ts : List (List α)} {m : ℚ} {i1 i2 : α} {w : ℚ} :
    (i1, i2, w) ∈ get_rules_by_lift ts m ↔
      (i1, i2) ∈ pairKeys ts ∧ w = liftOf ts i1 i2 ∧ m ≤ w := by
  unfold get_rules_by_lift
  rw [List.mem_filterMap]
  constructor
  · rintro ⟨⟨p1, p2⟩, hp, hf⟩
    by_cases hq : 1 ≤ freqs2 ts (p1, p2)
    · rw [if_pos hq] at hf
      by_cases hm : m ≤ liftOf ts (p1, p2).1 (p1, p2).2
      · rw [if_pos hm, Option.some_inj] at hf
        simp only [Prod.mk.injEq] at hf
        obtain ⟨rfl, rfl, rfl⟩ := hf
        exact ⟨hp, rfl, hm⟩
      · rw [if_neg hm] at hf
        exact absurd hf (by simp)
    · rw [if_neg hq] at hf
      exact absurd hf (by simp)
  · rintro ⟨hk, rfl, hm⟩
    exact ⟨(i1, i2), hk, by rw [if_pos (freqs2_pos_of_mem_pairKeys hk),
      if_pos hm]⟩

theorem rules_fixture_low :
    get_rules_by_lift [[0, 1], [0, 1], [0], [1], [2]] 1 =
      [(0, 1, 10/9)] := by
  have hk : pairKeys ([[0, 1], [0, 1], [0], [1], [2]] : List (List ℕ)) =
      [(0, 1)] := by decide
  have h2 : freqs2 ([[0, 1], [0, 1], [0], [1], [2]] : List (List ℕ))
      (0, 1) = 2 := by decide
  have ha : freqs1 ([[0, 1], [0, 1], [0], [1], [2]] : List (List ℕ)) 0 = 3 := by
    decide
  have hb : freqs1 ([[0, 1], [0, 1], [0], [1], [2]] : List (List ℕ)) 1 = 3 := by
    decide
  have hl : liftOf ([[0, 1], [0, 1], [0], [1], [2]] : List (List ℕ)) 0 1 =
      10/9 := by
    rw [liftOf, h2, ha, hb]
    norm_num
  rw [get_rules_by_lift, hk]
  simp only [List.filterMap_cons, List.filterMap_nil, h2, hl]
  norm_num

theorem rules_fixture_high :
    get_rules_by_lift [[0, 1], [0, 1], [0], [1], [2]] (6/5) = [] := by
  have hk : pairKeys ([[0, 1], [0, 1], [0], [1], [2]] : List (List ℕ)) =
      [(0, 1)] := by decide
  have h2 : freqs2 ([[0, 1], [0, 1], [0], [1], [2]] : List (List ℕ))
      (0, 1) = 2 := by decide
  have ha : freqs1 ([[0, 1], [0, 1], [0], [1], [2]] : List (List ℕ)) 0 = 3 := by
    decide
  have hb : freqs1 ([[0, 1], [0, 1], [0], [1], [2]] : List (List ℕ)) 1 = 3 := by
    decide
  have hl : liftOf ([[0, 1], [0, 1], [0], [1], [2]] : List (List ℕ)) 0 1 =
      10/9 := by
    rw [liftOf, h2, ha, hb]
    norm_num
  rw [get_rules_by_lift, hk]
  simp only [List.filterMap_cons, List.filterMap_nil, h2, hl]
  norm_num

/-! ## Claim C6 -/

/-- C6: `get_rules_by_lift` emits exactly one rule per co-occurring
(sorted, deduplicated) pair key — pairs being counted only from
transactions of size ≥ 2 via all unordered 2-combinations, which is how
`pairKeys`/`freqs2` are built — scored
`lift = freq2 * N / (freq1[i1] * freq1[i2])` (that is, `liftOf`), and the
rule appears iff `lift ≥ min_lift`.  On the fixture
`[{a,b}, {a,b}, {a}, {b}, {c}]` (as `[[0,1],[0,1],[0],[1],[2]]`) the rule
`(a, b)` has lift `2·5/(3·3) = 10/9` and is emitted with
`min_lift = 1.0` but not with `min_lift = 1.2`. -/
theorem claim_C6_lift_rules :
    (∀ (α : Type) [LinearOrder α] (ts : List (List α)) (m : ℚ)
      (i1 i2 : α) (w : ℚ),
        (i1, i2, w) ∈ get_rules_by_lift ts m ↔
          (i1, i2) ∈ pairKeys ts ∧ w = liftOf ts i1 i2 ∧ m ≤ w) ∧
    get_rules_by_lift [[0, 1], [0, 1], [0], [1], [2]] 1 =
      [(0, 1, 10/9)] ∧
    get_rules_by_lift [[0, 1], [0, 1], [0], [1], [2]] (6/5) = [] :=
  ⟨fun _ _ _ _ _ _ _ => mem_get_rules_by_lift, rules_fixture_low,
    rules_fixture_high⟩

/-! ## Helper lemmas about the topic-pair miner -/

theorem topic_pair_emit_def {α : Type} [LinearOrder α]
    (ts : List (List α)) (m : ℚ) (p : α × α) :
    topic_pair_emit ts m p =
      (if m ≤ (freqs2 ts p : ℚ) / (freqs1 ts p.1 : ℚ) -
          (freqs1 ts p.2 : ℚ) / (ts.length : ℚ) then
        [(p.1, p.2, (freqs2 ts p : ℚ) / (freqs1 ts p.1 : ℚ) -
          (freqs1 ts p.2 : ℚ) / (ts.length : ℚ))] else []) ++
      (if m ≤ (freqs2 ts p : ℚ) / (freqs1 ts p.2 : ℚ) -
          (freqs1 ts p.1 : ℚ) / (ts.length : ℚ) then
        [(p.2, p.1, (freqs2 ts p : ℚ) / (freqs1 ts p.2 : ℚ) -
          (freqs1 ts p.1 : ℚ) / (ts.length : ℚ))] else []) := rfl

theorem int12_eq_interestOf {α : Type} [LinearOrder α]
    {ts : List (List α)} {p : α × α} (hp : p.1 ≤ p.2) :
    (freqs2 ts p : ℚ) / (freqs1 ts p.1 : ℚ) -
        (freqs1 ts p.2 : ℚ) / (ts.length : ℚ) =
      interestOf ts p.1 p.2 := by
  rw [interestOf, sorted_tuple_eta hp]

theorem int21_eq_interestOf {α : Type} [LinearOrder α]
    {ts : List (List α)} {p : α × α} (hp : p.1 ≤ p.2) :
    (freqs2 ts p : ℚ) / (freqs1 ts p.2 : ℚ) -
        (freqs1 ts p.1 : ℚ) / (ts.length : ℚ) =
      interestOf ts p.2 p.1 := by
  rw [interestOf, sorted_tuple_of_ge hp, Prod.mk.eta]

theorem mem_topic_pair_emit {α : Type} [LinearOrder α]
    {ts : List (List α)} {m : ℚ} {p : α × α} (hp : p.1 ≤ p.2)
    {t1 t2 : α} {s : ℚ} :
    (t1, t2, s) ∈ topic_pair_emit ts m p ↔
      (((t1 = p.1 ∧ t2 = p.2) ∨ (t1 = p.2 ∧ t2 = p.1)) ∧
        s = interestOf ts t1 t2 ∧ m ≤ s) := by
  rw [topic_pair_emit_def, List.mem_append,
    int12_eq_interestOf hp, int21_eq_interestOf hp]
  constructor
  · rintro (h | h)
    · split at h
      · obtain heq := List.mem_singleton.mp h
        simp only [Prod.mk.injEq] at heq
        obtain ⟨rfl, rfl, rfl⟩ := heq
        exact ⟨Or.inl ⟨rfl, rfl⟩, rfl, by assumption⟩
      · exact absurd h (List.not_mem_nil _)
    · split at h
      · obtain heq := List.mem_singleton.mp h
        simp only [Prod.mk.injEq] at heq
        obtain ⟨rfl, rfl, rfl⟩ := heq
        exact ⟨Or.inr ⟨rfl, rfl⟩, rfl, by assumption⟩
      · exact absurd h (List.not_mem_nil _)
  · rintro ⟨⟨rfl, rfl⟩ | ⟨rfl, rfl⟩, rfl, hm⟩
    · exact Or.inl (by rw [if_pos hm]; exact List.mem_singleton.mpr rfl)
    · exact Or.inr (by rw [if_pos hm]; exact List.mem_singleton.mpr rfl)

theorem mem_get_frequent_topic_pairs {α : Type} [LinearOrder α]
    {ts : List (List α)} {m : ℚ} {t1 t2 : α} {s : ℚ} :
    (t1, t2, s) ∈ get_frequent_topic_pairs ts m ↔
      sorted_tuple t1 t2 ∈ pairKeys ts ∧ s = interestOf ts t1 t2 ∧ m ≤ s := by
  unfold get_frequent_topic_pairs
  rw [List.mem_flatten]
  constructor
  · rintro ⟨l, hl, hmem⟩
    obtain ⟨p, hps, rfl⟩ := List.mem_map.mp hl
    have hpk : p ∈ pairKeys ts := (mem_sortBy _ _ _).mp hps
    have hsorted : p.1 ≤ p.2 := mem_pairKeys_sorted hpk
    obtain ⟨hd, hs, hm⟩ := (mem_topic_pair_emit hsorted).mp hmem
    refine ⟨?_, hs, hm⟩
    rcases hd with ⟨rfl, rfl⟩ | ⟨rfl, rfl⟩
    · rwa [sorted_tuple_eta hsorted]
    · rwa [sorted_tuple_of_ge hsorted, Prod.mk.eta]
  · rintro ⟨hk, hs, hm⟩
    rcases le_total t1 t2 with h12 | h21
    · refine ⟨topic_pair_emit ts m (t1, t2),
        List.mem_map.mpr ⟨(t1, t2), (mem_sortBy _ _ _).mpr
          (by rwa [sorted_tuple_of_le h12] at hk), rfl⟩, ?_⟩
      exact (mem_topic_pair_emit (p := (t1, t2)) h12).mpr
        ⟨Or.inl ⟨rfl, rfl⟩, hs, hm⟩
    · refine ⟨topic_pair_emit ts m (t2, t1),
        List.mem_map.mpr ⟨(t2, t1), (mem_sortBy _ _ _).mpr
          (by rwa [sorted_tuple_of_ge h21] at hk), rfl⟩, ?_⟩
      exact (mem_topic_pair_emit (p := (t2, t1)) h21).mpr
        ⟨Or.inr ⟨rfl, rfl⟩, hs, hm⟩

/-! ## Claim C9 -/

/-- C9 (amended): `get_frequent_topic_pairs` does compute the directional
interest scores `interest(t1→t2) = freq2/freq1[t1] − freq1[t2]/N` (and the
symmetric direction), emitting each direction independently exactly when
it reaches `min_interest` — but the topic layer
(`get_topics_layer_from_db`) does not use it: its topic–topic edges are
produced by `get_rules_by_lift` (lift scoring), the interest-based call
being commented out in the source. -/
theorem claim_C9_topic_pairs :
    (∀ (α : Type) [LinearOrder α] (ts : List (List α)) (m : ℚ)
      (t1 t2 : α) (s : ℚ),
        (t1, t2, s) ∈ get_frequent_topic_pairs ts m ↔
          sorted_tuple t1 t2 ∈ pairKeys ts ∧
            s = interestOf ts t1 t2 ∧ m ≤ s) ∧
    (∀ (ts : List (List ℕ)) (m : ℚ),
        get_topics_layer_topic_topic_edges ts m =
          normalize_edges (get_rules_by_lift ts m)) :=
  ⟨fun _ _ _ _ _ _ _ => mem_get_frequent_topic_pairs, fun _ _ => rfl⟩

/-- C9 as stated is false about the layer: on the fixture
`[[0,1],[0,1],[0],[1],[2]]` with threshold `1`, the topic layer's
topic–topic edges are the (normalized) lift rules `[(0, 1, 1)]`, while the
directional-interest miner emits nothing (`interest = 2/3 − 3/5 = 1/15 <
1` in both directions): the layer uses lift, not directional interest. -/
theorem claim_C9_cex :
    get_topics_layer_topic_topic_edges [[0, 1], [0, 1], [0], [1], [2]] 1 =
      some [(0, 1, 1)] ∧
    get_frequent_topic_pairs [[0, 1], [0, 1], [0], [1], [2]] (1 : ℚ) =
      ([] : List (ℕ × ℕ × ℚ)) ∧
    normalize_edges
        (get_frequent_topic_pairs [[0, 1], [0, 1], [0], [1], [2]] (1 : ℚ)) ≠
      get_topics_layer_topic_topic_edges [[0, 1], [0, 1], [0], [1], [2]] 1 := by
  have h1 : get_topics_layer_topic_topic_edges
      [[0, 1], [0, 1], [0], [1], [2]] 1 = some [(0, 1, 1)] := by
    have hw : wmaxOf [((0 : ℕ), (1 : ℕ), (10/9 : ℚ))] = 10/9 := by
      rw [wmaxOf, List.foldl_cons, List.foldl_nil]
      norm_num
    rw [get_topics_layer_topic_topic_edges, rules_fixture_low]
    unfold normalize_edges
    rw [hw]
    norm_num
  have h2 : get_frequent_topic_pairs [[0, 1], [0, 1], [0], [1], [2]]
      (1 : ℚ) = ([] : List (ℕ × ℕ × ℚ)) := by
    have hk : sortBy
        (fun p q => freqs2 ([[0, 1], [0, 1], [0], [1], [2]] : List (List ℕ)) q ≤
          freqs2 ([[0, 1], [0, 1], [0], [1], [2]] : List (List ℕ)) p)
        (pairKeys ([[0, 1], [0, 1], [0], [1], [2]] : List (List ℕ))) =
        [(0, 1)] := by decide
    have hf2 : freqs2 ([[0, 1], [0, 1], [0], [1], [2]] : List (List ℕ))
        (0, 1) = 2 := by decide
    have ha : freqs1 ([[0, 1], [0, 1], [0], [1], [2]] : List (List ℕ)) 0 = 3 := by
      decide
    have hb : freqs1 ([[0, 1], [0, 1], [0], [1], [2]] : List (List ℕ)) 1 = 3 := by
      decide
    rw [get_frequent_topic_pairs, hk, List.map_cons, List.map_nil,
      topic_pair_emit_def]
    simp only [hf2, ha, hb]
    norm_num
  refine ⟨h1, h2, ?_⟩
  rw [h1, h2]
  simp [normalize_edges]

/-! ## Claim C4 -/

/-- C4 (amended): `get_relevant_topics` raises a `TypeError` (modelled as
`none`) exactly when both `ntop` and `above` are Python-falsy (`None` or
zero); it does not fail when both are supplied — `ntop` silently takes
priority and the `above` argument is ignored — and when only `above` is
truthy it returns the indices with value strictly greater than `above`. -/
theorem claim_C4_relevant_topics (dt : List ℚ) (ntop : Option ℕ)
    (above : Option ℚ) :
    (get_relevant_topics dt ntop above = none ↔
      truthyNat ntop = false ∧ truthyRat above = false) ∧
    (truthyNat ntop = true →
      get_relevant_topics dt ntop above =
        some ((argsort dt).reverse.take (ntop.getD 0))) ∧
    (truthyNat ntop = false → ∀ a : ℚ, above = some a → a ≠ 0 →
      ∀ i : ℕ, i ∈ (get_relevant_topics dt ntop above).getD [] ↔
        i < dt.length ∧ a < dt.getD i 0) := by
  refine ⟨?_, ?_, ?_⟩
  · rcases h1 : truthyNat ntop with - | -
    · rcases h2 : truthyRat above with - | -
      · simp [get_relevant_topics, h1, h2]
      · simp [get_relevant_topics, h1, h2]
    · simp [get_relevant_topics, h1]
  · intro h
    simp [get_relevant_topics, h]
  · rintro hnt a rfl ha i
    have htr : truthyRat (some a) = true := by
      simp [truthyRat, ha]
    simp [get_relevant_topics, hnt, htr, List.mem_filter, List.mem_range]

/-- C4 as stated is false on the code: supplying both selection arguments
(`ntop = 1` together with `above = 3`) does not raise — the call returns
the top-1 selection `[1]`. -/
theorem claim_C4_cex :
    get_relevant_topics [1, 5] (some 1) (some 3) = some [1] ∧
    get_relevant_topics [1, 5] (some 1) (some 3) ≠ none := by
  constructor
  · decide
  · decide

/-- C4 witness: the amended theorem applied with only `above` supplied on
`doc_topics = [1, 5]`, `above = 3`: index 1 (value 5 > 3) is selected. -/
theorem claim_C4_witness :
    (1 : ℕ) ∈ (get_relevant_topics [1, 5] none (some 3)).getD [] ↔
      1 < ([1, 5] : List ℚ).length ∧ (3 : ℚ) < ([1, 5] : List ℚ).getD 1 0 :=
  (claim_C4_relevant_topics [1, 5] none (some 3)).2.2 rfl 3 rfl
    (by norm_num) 1

/-! ## Claim C8 -/

theorem add_layer_nodes {α : Type} (ty : NodeType) :
    ∀ (es : List α) (k : ℕ),
      (add_layer ty es k).1 =
        (List.range' k es.length).map (fun i => (i, ty)) ∧
      (add_layer ty es k).2.2 = k + es.length
  | [], k => by simp [add_layer]
  | e :: es, k => by
    obtain ⟨h1, h2⟩ := add_layer_nodes ty es (k + 1)
    refine ⟨?_, ?_⟩
    · rw [show (e :: es).length = es.length + 1 from rfl, List.range'_succ]
      simp only [add_layer, List.map_cons, h1]
    · rw [show (add_layer ty (e :: es) k).2.2 =
        (add_layer ty es (k + 1)).2.2 from rfl, h2, List.length_cons]
      omega

theorem range'_append_one (s m n : ℕ) :
    List.range' s m ++ List.range' (s + m) n = List.range' s (m + n) := by
  have h := List.range'_append s m n 1
  rw [one_mul] at h
  rw [Nat.add_comm m n]
  exact h

/-- C8: `assemble_layers` assigns internal node ids as the dense integer
range `0, 1, …, total−1` with no gaps and no reuse, monotonically in the
fixed layer order publications → authors → ngrams → venues, and the node
count equals the sum of the per-layer node counts (an entity occurring in
two layers receives two distinct ids, so nothing is double-counted or
merged). -/
theorem claim_C8_dense_ids {α β γ δ : Type} (pubs : List α)
    (authors : List β) (ngrams : List γ) (venues : List δ) :
    (assemble_layers pubs authors ngrams venues).1.map Prod.fst =
      List.range
        (pubs.length + authors.length + ngrams.length + venues.length) ∧
    (assemble_layers pubs authors ngrams venues).1.map Prod.snd =
      List.replicate pubs.length NodeType.paper ++
      List.replicate authors.length NodeType.author ++
      List.replicate ngrams.length NodeType.ngram ++
      List.replicate venues.length NodeType.venue := by
  obtain ⟨hp1, hp2⟩ := add_layer_nodes NodeType.paper pubs 0
  obtain ⟨ha1, ha2⟩ := add_layer_nodes NodeType.author authors
    (add_layer NodeType.paper pubs 0).2.2
  obtain ⟨hw1, hw2⟩ := add_layer_nodes NodeType.ngram ngrams
    (add_layer NodeType.author authors (add_layer NodeType.paper pubs 0).2.2).2.2
  obtain ⟨hv1, hv2⟩ := add_layer_nodes NodeType.venue venues
    (add_layer NodeType.ngram ngrams
      (add_layer NodeType.author authors
        (add_layer NodeType.paper pubs 0).2.2).2.2).2.2
  rw [hp2] at ha1 ha2 hw1 hw2 hv1
  rw [ha2] at hw1 hw2 hv1
  rw [hw2] at hv1
  constructor
  · show ((add_layer NodeType.paper pubs 0).1 ++
      (add_layer NodeType.author authors _).1 ++
      (add_layer NodeType.ngram ngrams _).1 ++
      (add_layer NodeType.venue venues _).1).map Prod.fst = _
    have hid : ∀ (l : List ℕ) (ty : NodeType),
        List.map Prod.fst (l.map (fun i => (i, ty))) = l := by
      intro l ty
      induction l with
      | nil => rfl
      | cons x xs ih => simp [ih]
    rw [hp1, hp2, ha1, ha2, hw1, hw2, hv1]
    simp only [List.map_append]
    rw [hid, hid, hid, hid]
    rw [List.append_assoc, List.append_assoc]
    rw [range'_append_one (0 + pubs.length + authors.length) ngrams.length
      venues.length]
    rw [range'_append_one (0 + pubs.length) authors.length]
    rw [range'_append_one 0 pubs.length]
    rw [List.range_eq_range']
    congr 1
    omega
  · show ((add_layer NodeType.paper pubs 0).1 ++
      (add_layer NodeType.author authors _).1 ++
      (add_layer NodeType.ngram ngrams _).1 ++
      (add_layer NodeType.venue venues _).1).map Prod.snd = _
    have hty : ∀ (l : List ℕ) (ty : NodeType),
        List.map Prod.snd (l.map (fun i => (i, ty))) =
          List.replicate l.length ty := by
      intro l ty
      induction l with
      | nil => rfl
      | cons x xs ih => simp [ih, List.replicate_succ]
    rw [hp1, hp2, ha1, ha2, hw1, hw2, hv1]
    simp only [List.map_append]
    rw [hty, hty, hty, hty]
    simp only [List.length_range']
